import Mathlib

/-!
Shallow embedding of `src/lib.rs` (`jenks_breaks_optimized`), the Jenks
natural-breaks dynamic program, in two arithmetic models.

The primary model uses exact rational arithmetic, with `WithTop ℚ`
playing the role of `f64` values that may be `f64::INFINITY` (the
initial value of every `variance_combinations` cell and of the
inner-loop accumulator `min_variance`).  It is used for the value and
structure properties, on which it agrees with binary64 whenever no
intermediate overflows or rounds.

The supplementary model (`F64` below) mirrors the same routine over a
type with infinities and NaN: finite arithmetic is kept exact, results
overflow to the signed infinity at magnitude `2 ^ 1024`, infinities and
NaN propagate, and comparisons follow IEEE-754 (NaN is incomparable).
It coincides with IEEE-754 binary64 on traces whose finite intermediate
results are powers of two far from the overflow boundary, and exhibits
the overflow-to-NaN behaviour the rational model cannot represent.

In both models the `usize` results are `ℕ`, a `PyResult` is an
`Except JError`, and the whole call is wrapped in `Option` where `none`
models a panic — the `usize` subtraction
`lower_class_limits[idx(k, j)] - 1` in the backtracking loop applied to
a stored `0`.
-/

set_option maxHeartbeats 1000000
set_option maxRecDepth 100000

namespace Jenks

/-- Error variants of the three `PyValueError`s raised in `src/lib.rs`. -/
inductive JError where
  | zeroClasses
  | tooManyClasses
  | unsortedInput
deriving DecidableEq

/-- Exact message strings passed to `PyErr::new` in `src/lib.rs`. -/
def JError.message : JError → String
  | .zeroClasses => "Number of classes must be a positive integer."
  | .tooManyClasses => "Number of classes cannot exceed number of data points."
  | .unsortedInput => "The input NumPy array must be sorted."

/-- The sortedness check `data.windows(2).all(|w| w[0] <= w[1])`. -/
def sortedCheck (data : List ℚ) : Bool :=
  (data.zip data.tail).all fun p => decide (p.1 ≤ p.2)

/-- The prefix-sum array entry `cumulative_sum[i]` (built by the loop
`cumulative_sum[i] = cumulative_sum[i - 1] + data[i - 1]`). -/
def cumulative_sum (data : List ℚ) (i : ℕ) : ℚ :=
  (data.take i).sum

/-- The prefix-sum array entry `cumulative_sum_squares[i]` (built by the loop
`cumulative_sum_squares[i] = cumulative_sum_squares[i - 1] + data[i - 1] * data[i - 1]`). -/
def cumulative_sum_squares (data : List ℚ) (i : ℕ) : ℚ :=
  ((data.take i).map (fun x => x * x)).sum

/-- The quantity `variance` computed from the prefix sums for the half-open
range `(k, i]`:
`sum_squares - (sum * sum) / w` with `w = (i - k) as f64`
(lines 62–65 of `src/lib.rs`; the base case at lines 48–50 is the
instance `k = 0`). -/
def rangeVariance (data : List ℚ) (k i : ℕ) : ℚ :=
  let sum := cumulative_sum data i - cumulative_sum data k
  let sumSquares := cumulative_sum_squares data i - cumulative_sum_squares data k
  sumSquares - (sum * sum) / ((i - k : ℕ) : ℚ)

/-- One iteration of the inner `k` loop: on `total_variance < min_variance`
replace `(min_variance, min_k)` by `(total_variance, k + 1)`. -/
def scanStep (f : ℕ → WithTop ℚ) (acc : WithTop ℚ × ℕ) (k : ℕ) : WithTop ℚ × ℕ :=
  if f k < acc.1 then (f k, k + 1) else acc

/-- The inner `k` loop, started from `min_variance = f64::INFINITY` and
`min_k = 0`. -/
def minScan (f : ℕ → WithTop ℚ) (ks : List ℕ) : WithTop ℚ × ℕ :=
  ks.foldl (scanStep f) (⊤, 0)

/-- DP cell `(variance_combinations[idx(i, j)], lower_class_limits[idx(i, j)])`
after the fill loops have run (argument order: class count `j` first, then
prefix length `i`).  Cells never written by the loops keep their initial
values `(f64::INFINITY, 0)`.  Column `j = 1` is filled by the base-case
loop (lines 46–52); columns `j ≥ 2` by the triple DP loop (lines 54–80),
whose candidate range `k ∈ [j - 1, i - 1]` is `List.range' (j-1) (i-(j-1))`. -/
def cell (data : List ℚ) : ℕ → ℕ → WithTop ℚ × ℕ
  | 0, _ => (⊤, 0)
  | 1, i => if 1 ≤ i then (((rangeVariance data 0 i : ℚ) : WithTop ℚ), 1) else (⊤, 0)
  | j + 2, i =>
    if j + 2 ≤ i then
      minScan (fun k => (cell data (j + 1) k).1 + ((rangeVariance data k i : ℚ) : WithTop ℚ))
        (List.range' (j + 1) (i - (j + 1)))
    else (⊤, 0)

/-- The backtracking loop (lines 82–88), accumulating
`break_indices[j - 2] = lower_class_limits[idx(k, j)] - 1` for `j` from
`num_classes` down to `2`; `none` models the `usize` underflow panic of
that subtraction when the stored table value is `0`. -/
def backtrack (data : List ℚ) : ℕ → ℕ → Option (List ℕ)
  | 0, _ => some []
  | 1, _ => some []
  | j + 2, k =>
    let v := (cell data (j + 2) k).2
    if v = 0 then none
    else
      match backtrack data (j + 1) (v - 1) with
      | none => none
      | some rest => some (rest ++ [v - 1])

/-- The entry point `jenks_breaks_optimized(data, num_classes)`.  The outer
`Option` layer models panics: `some (Except.error e)` is a raised
`PyValueError`, `some (Except.ok bs)` is a normal return, `none` a panic. -/
def jenks_breaks_optimized (data : List ℚ) (num_classes : ℕ) :
    Option (Except JError (List ℕ)) :=
  if num_classes = 0 then some (Except.error JError.zeroClasses)
  else if num_classes > data.length then some (Except.error JError.tooManyClasses)
  else if sortedCheck data = false then some (Except.error JError.unsortedInput)
  else
    match backtrack data num_classes data.length with
    | none => none
    | some bs => some (Except.ok bs)

/-- The slice of `data` underlying the half-open index range `(a, b]`
(a proof-side view of the prefix-sum differences; not part of the code). -/
def seg (data : List ℚ) (a b : ℕ) : List ℚ :=
  (data.take b).drop a

/-!  Supplementary binary64 model.  `F64` carries the non-finite `f64`
values the rational model cannot represent.  Finite arithmetic is exact
(rounding is not modelled; the traces evaluated below only produce
finite results that are powers of two, on which binary64 arithmetic is
itself exact), overflow goes to the signed infinity at magnitude
`2 ^ 1024` (the binary64 overflow boundary), infinities and NaN
propagate as in IEEE-754, and comparisons are IEEE-754 (any comparison
with NaN is false).  Negative zero and subnormals are not distinguished;
they do not occur on the evaluated traces. -/

/-- A binary64 value: a finite (exact) rational, an infinity, or NaN. -/
inductive F64 where
  | fin (q : ℚ)
  | inf
  | neginf
  | nan
deriving DecidableEq

/-- Close a finite result: overflow to the signed infinity at the
binary64 boundary `2 ^ 1024`, else keep it exact. -/
def F64.ofRat (q : ℚ) : F64 :=
  if 2 ^ 1024 ≤ q then .inf else if q ≤ -(2 ^ 1024) then .neginf else .fin q

/-- IEEE-754 `<=` (used by the sortedness check `w[0] <= w[1]`). -/
def F64.le : F64 → F64 → Bool
  | nan, _ => false
  | _, nan => false
  | neginf, _ => true
  | _, inf => true
  | fin a, fin b => decide (a ≤ b)
  | inf, _ => false
  | fin _, neginf => false

/-- IEEE-754 `<` (used by `total_variance < min_variance`; false whenever
either operand is NaN). -/
def F64.lt : F64 → F64 → Bool
  | nan, _ => false
  | _, nan => false
  | _, neginf => false
  | neginf, _ => true
  | fin a, fin b => decide (a < b)
  | fin _, inf => true
  | inf, _ => false

/-- IEEE-754 addition (`inf + neginf = NaN`). -/
def F64.add : F64 → F64 → F64
  | nan, _ => nan
  | _, nan => nan
  | inf, neginf => nan
  | neginf, inf => nan
  | inf, _ => inf
  | _, inf => inf
  | neginf, _ => neginf
  | _, neginf => neginf
  | fin a, fin b => ofRat (a + b)

/-- IEEE-754 subtraction (`inf - inf = NaN`). -/
def F64.sub : F64 → F64 → F64
  | nan, _ => nan
  | _, nan => nan
  | inf, inf => nan
  | neginf, neginf => nan
  | inf, _ => inf
  | _, inf => neginf
  | neginf, _ => neginf
  | _, neginf => inf
  | fin a, fin b => ofRat (a - b)

/-- IEEE-754 multiplication (`inf * 0 = NaN`). -/
def F64.mul : F64 → F64 → F64
  | nan, _ => nan
  | _, nan => nan
  | fin a, fin b => ofRat (a * b)
  | inf, inf => inf
  | inf, neginf => neginf
  | neginf, inf => neginf
  | neginf, neginf => inf
  | inf, fin b => if 0 < b then inf else if b < 0 then neginf else nan
  | fin a, inf => if 0 < a then inf else if a < 0 then neginf else nan
  | neginf, fin b => if 0 < b then neginf else if b < 0 then inf else nan
  | fin a, neginf => if 0 < a then neginf else if a < 0 then inf else nan

/-- IEEE-754 division (`inf / inf = NaN`, `0 / 0 = NaN`); only ever called
here with a positive finite integer divisor `w = (i - k) as f64`. -/
def F64.div : F64 → F64 → F64
  | nan, _ => nan
  | _, nan => nan
  | inf, inf => nan
  | inf, neginf => nan
  | neginf, inf => nan
  | neginf, neginf => nan
  | inf, fin b => if b < 0 then neginf else inf
  | neginf, fin b => if b < 0 then inf else neginf
  | fin _, inf => fin 0
  | fin _, neginf => fin 0
  | fin a, fin b =>
    if b = 0 then (if a = 0 then nan else if 0 < a then inf else neginf)
    else ofRat (a / b)

/-- Binary64 mirror of `sortedCheck`. -/
def fsortedCheck (data : List F64) : Bool :=
  (data.zip data.tail).all fun p => F64.le p.1 p.2

/-- Binary64 mirror of `cumulative_sum`, built by the sequential loop
`cumulative_sum[i] = cumulative_sum[i - 1] + data[i - 1]`. -/
def fcumulative_sum (data : List F64) : ℕ → F64
  | 0 => F64.fin 0
  | i + 1 => F64.add (fcumulative_sum data i) (data.getD i (F64.fin 0))

/-- Binary64 mirror of `cumulative_sum_squares`, built by the sequential
loop with `data[i - 1] * data[i - 1]`. -/
def fcumulative_sum_squares (data : List F64) : ℕ → F64
  | 0 => F64.fin 0
  | i + 1 => F64.add (fcumulative_sum_squares data i)
      (F64.mul (data.getD i (F64.fin 0)) (data.getD i (F64.fin 0)))

/-- Binary64 mirror of `rangeVariance` (lines 62–65 of `src/lib.rs`). -/
def frangeVariance (data : List F64) (k i : ℕ) : F64 :=
  let sum := F64.sub (fcumulative_sum data i) (fcumulative_sum data k)
  let sumSquares := F64.sub (fcumulative_sum_squares data i) (fcumulative_sum_squares data k)
  F64.sub sumSquares (F64.div (F64.mul sum sum) (F64.fin ((i - k : ℕ) : ℚ)))

/-- Binary64 mirror of `scanStep`: the update fires only when the IEEE
comparison `total_variance < min_variance` is true, hence never on NaN. -/
def fscanStep (f : ℕ → F64) (acc : F64 × ℕ) (k : ℕ) : F64 × ℕ :=
  if F64.lt (f k) acc.1 then (f k, k + 1) else acc

/-- Binary64 mirror of `minScan`. -/
def fminScan (f : ℕ → F64) (ks : List ℕ) : F64 × ℕ :=
  ks.foldl (fscanStep f) (F64.inf, 0)

/-- Binary64 mirror of `cell`. -/
def fcell (data : List F64) : ℕ → ℕ → F64 × ℕ
  | 0, _ => (F64.inf, 0)
  | 1, i => if 1 ≤ i then (frangeVariance data 0 i, 1) else (F64.inf, 0)
  | j + 2, i =>
    if j + 2 ≤ i then
      fminScan (fun k => F64.add (fcell data (j + 1) k).1 (frangeVariance data k i))
        (List.range' (j + 1) (i - (j + 1)))
    else (F64.inf, 0)

/-- Binary64 mirror of `backtrack`; `none` models the `usize` underflow
panic of `lower_class_limits[idx(k, j)] - 1` on a stored `0`. -/
def fbacktrack (data : List F64) : ℕ → ℕ → Option (List ℕ)
  | 0, _ => some []
  | 1, _ => some []
  | j + 2, k =>
    let v := (fcell data (j + 2) k).2
    if v = 0 then none
    else
      match fbacktrack data (j + 1) (v - 1) with
      | none => none
      | some rest => some (rest ++ [v - 1])

/-- Binary64 mirror of the entry point `jenks_breaks_optimized`. -/
def jenks_breaks_optimized_f64 (data : List F64) (num_classes : ℕ) :
    Option (Except JError (List ℕ)) :=
  if num_classes = 0 then some (Except.error JError.zeroClasses)
  else if num_classes > data.length then some (Except.error JError.tooManyClasses)
  else if fsortedCheck data = false then some (Except.error JError.unsortedInput)
  else
    match fbacktrack data num_classes data.length with
    | none => none
    | some bs => some (Except.ok bs)

/-!  Characterization of the inner minimum scan.  The fold either never
improves on its initial accumulator, or it ends at the first candidate
attaining the overall minimum. -/

theorem foldl_scanStep_spec (f : ℕ → WithTop ℚ) (ks : List ℕ) :
    ∀ (m : WithTop ℚ) (b : ℕ),
      ((∀ k ∈ ks, m ≤ f k) ∧ ks.foldl (scanStep f) (m, b) = (m, b)) ∨
      (∃ l1 c l2, ks = l1 ++ c :: l2 ∧ f c < m ∧ (∀ k ∈ l1, f c < f k) ∧
        (∀ k ∈ l2, f c ≤ f k) ∧ ks.foldl (scanStep f) (m, b) = (f c, c + 1)) := by
  induction ks with
  | nil =>
    intro m b
    exact Or.inl ⟨by simp, rfl⟩
  | cons k0 rest ih =>
    intro m b
    have hstep : ∀ (mm : WithTop ℚ) (bb : ℕ),
        (k0 :: rest).foldl (scanStep f) (mm, bb) =
          rest.foldl (scanStep f) (scanStep f (mm, bb) k0) := by
      intro mm bb; rfl
    by_cases h : f k0 < m
    · have hs : scanStep f (m, b) k0 = (f k0, k0 + 1) := by simp [scanStep, h]
      rcases ih (f k0) (k0 + 1) with ⟨hall, heq⟩ | ⟨l1, c, l2, hks, hlt, hl1, hl2, heq⟩
      · refine Or.inr ⟨[], k0, rest, rfl, h, by simp, hall, ?_⟩
        rw [hstep, hs, heq]
      · refine Or.inr ⟨k0 :: l1, c, l2, by simp [hks], hlt.trans h, ?_, hl2, ?_⟩
        · intro k hk
          rcases List.mem_cons.mp hk with rfl | hk
          · exact hlt
          · exact hl1 k hk
        · rw [hstep, hs, heq]
    · have hs : scanStep f (m, b) k0 = (m, b) := by simp [scanStep, h]
      rcases ih m b with ⟨hall, heq⟩ | ⟨l1, c, l2, hks, hlt, hl1, hl2, heq⟩
      · refine Or.inl ⟨?_, ?_⟩
        · intro k hk
          rcases List.mem_cons.mp hk with rfl | hk
          · exact not_lt.mp h
          · exact hall k hk
        · rw [hstep, hs, heq]
      · refine Or.inr ⟨k0 :: l1, c, l2, by simp [hks], hlt, ?_, hl2, ?_⟩
        · intro k hk
          rcases List.mem_cons.mp hk with rfl | hk
          · exact hlt.trans_le (not_lt.mp h)
          · exact hl1 k hk
        · rw [hstep, hs, heq]

theorem minScan_fst_le (f : ℕ → WithTop ℚ) (ks : List ℕ) (c : ℕ) (hc : c ∈ ks) :
    (minScan f ks).1 ≤ f c := by
  rcases foldl_scanStep_spec f ks ⊤ 0 with ⟨hall, heq⟩ | ⟨l1, c', l2, hks, _, hl1, hl2, heq⟩
  · rw [minScan, heq]
    exact hall c hc
  · rw [minScan, heq]
    subst hks
    rcases List.mem_append.mp hc with hc1 | hc2
    · exact (hl1 c hc1).le
    · rcases List.mem_cons.mp hc2 with rfl | hc3
      · exact le_rfl
      · exact hl2 c hc3

theorem minScan_attained (f : ℕ → WithTop ℚ) (ks : List ℕ) (hne : ∃ k ∈ ks, f k < ⊤) :
    ∃ l1 c l2, ks = l1 ++ c :: l2 ∧ (∀ k ∈ l1, f c < f k) ∧ (∀ k ∈ l2, f c ≤ f k) ∧
      minScan f ks = (f c, c + 1) := by
  rcases foldl_scanStep_spec f ks ⊤ 0 with ⟨hall, _⟩ | ⟨l1, c, l2, hks, _, hl1, hl2, heq⟩
  · obtain ⟨k, hk, hklt⟩ := hne
    exact absurd (hall k hk) hklt.not_le
  · exact ⟨l1, c, l2, hks, hl1, hl2, heq⟩

/-!  Unfolding equations and elementary bounds for the DP table. -/

theorem cell_one (data : List ℚ) {i : ℕ} (hi : 1 ≤ i) :
    cell data 1 i = (((rangeVariance data 0 i : ℚ) : WithTop ℚ), 1) := by
  simp [cell, hi]

theorem cell_two_le (data : List ℚ) {j i : ℕ} (hj : 2 ≤ j) (hji : j ≤ i) :
    cell data j i =
      minScan (fun k => (cell data (j - 1) k).1 + ((rangeVariance data k i : ℚ) : WithTop ℚ))
        (List.range' (j - 1) (i - (j - 1))) := by
  obtain ⟨jj, rfl⟩ : ∃ jj, j = jj + 2 := ⟨j - 2, by omega⟩
  have h2 : jj + 2 - 1 = jj + 1 := rfl
  rw [h2]
  simp [cell, hji]

theorem cell_le_candidate (data : List ℚ) {j i c : ℕ} (hj : 2 ≤ j) (hji : j ≤ i)
    (hc1 : j - 1 ≤ c) (hc2 : c < i) :
    (cell data j i).1 ≤ (cell data (j - 1) c).1 + ((rangeVariance data c i : ℚ) : WithTop ℚ) := by
  rw [cell_two_le data hj hji]
  exact minScan_fst_le _ _ c (by rw [List.mem_range'_1]; omega)

theorem cell_fst_lt_top (data : List ℚ) : ∀ j, 1 ≤ j → ∀ i, j ≤ i → (cell data j i).1 < ⊤ := by
  intro j
  induction j with
  | zero => intro h; exact absurd h (by omega)
  | succ jj ih =>
    intro _ i hji
    by_cases hjj : jj = 0
    · subst hjj
      rw [cell_one data (by omega)]
      exact WithTop.coe_lt_top _
    · have hj2 : 2 ≤ jj + 1 := by omega
      have hle := cell_le_candidate data (c := jj) hj2 hji (by omega) (by omega)
      have hjj1 : jj + 1 - 1 = jj := rfl
      rw [hjj1] at hle
      have hfin : (cell data jj jj).1 < ⊤ := ih (by omega) jj le_rfl
      exact lt_of_le_of_lt hle (WithTop.add_lt_top.mpr ⟨hfin, WithTop.coe_lt_top _⟩)

theorem cell_snd_bounds (data : List ℚ) : ∀ j, 1 ≤ j → ∀ i, j ≤ i →
    j ≤ (cell data j i).2 ∧ (cell data j i).2 ≤ i := by
  intro j hj i hji
  by_cases hjj : j = 1
  · subst hjj
    rw [cell_one data (by omega)]
    exact ⟨le_rfl, by omega⟩
  · have hj2 : 2 ≤ j := by omega
    have hex : ∃ k ∈ List.range' (j - 1) (i - (j - 1)),
        (fun k => (cell data (j - 1) k).1 + ((rangeVariance data k i : ℚ) : WithTop ℚ)) k < ⊤ := by
      refine ⟨j - 1, by rw [List.mem_range'_1]; omega, ?_⟩
      exact WithTop.add_lt_top.mpr
        ⟨cell_fst_lt_top data (j - 1) (by omega) (j - 1) le_rfl, WithTop.coe_lt_top _⟩
    obtain ⟨l1, c, l2, hks, _, _, heq⟩ := minScan_attained _ _ hex
    have hc : c ∈ List.range' (j - 1) (i - (j - 1)) := by
      rw [hks]
      exact List.mem_append_right _ (List.mem_cons_self _ _)
    rw [List.mem_range'_1] at hc
    rw [cell_two_le data hj2 hji, heq]
    exact ⟨by omega, by omega⟩

/-!  Backtracking: for any DP table reachable after validation, the loop
never reads a zero `lower_class_limits` entry, fills `num_classes - 1`
slots, and produces a strictly increasing index list whose entries all lie
below the current backtracking position. -/

theorem backtrack_spec (data : List ℚ) : ∀ j, 1 ≤ j → ∀ k, j ≤ k →
    ∃ bs, backtrack data j k = some bs ∧ bs.length = j - 1 ∧
      List.Chain' (· < ·) (bs ++ [k]) := by
  intro j
  induction j with
  | zero => intro h; exact absurd h (by omega)
  | succ jj ih =>
    intro _ k hjk
    by_cases hjj : jj = 0
    · subst hjj
      exact ⟨[], rfl, rfl, List.chain'_singleton k⟩
    · obtain ⟨jjj, rfl⟩ : ∃ jjj, jj = jjj + 1 := ⟨jj - 1, by omega⟩
      have hbounds := cell_snd_bounds data (jjj + 2) (by omega) k hjk
      have hvne : (cell data (jjj + 2) k).2 ≠ 0 := by omega
      obtain ⟨bs, hbs, hlen, hchain⟩ := ih (by omega) ((cell data (jjj + 2) k).2 - 1) (by omega)
      refine ⟨bs ++ [(cell data (jjj + 2) k).2 - 1], ?_, ?_, ?_⟩
      · show backtrack data (jjj + 2) k = _
        rw [backtrack]
        simp only [hvne, if_false, hbs]
      · simp only [List.length_append, List.length_singleton, hlen]
        omega
      · refine List.Chain'.append hchain (List.chain'_singleton k) ?_
        intro x hx y hy
        rw [List.getLast?_concat] at hx
        simp only [List.head?_cons, Option.mem_some_iff] at hx hy
        subst hx
        subst hy
        omega

theorem jenks_ok_spec (data : List ℚ) (k : ℕ) (h1 : 1 ≤ k) (h2 : k ≤ data.length)
    (h3 : sortedCheck data = true) :
    ∃ bs, jenks_breaks_optimized data k = some (Except.ok bs) ∧ bs.length = k - 1 ∧
      List.Chain' (· < ·) bs := by
  obtain ⟨bs, hbs, hlen, hchain⟩ := backtrack_spec data k h1 data.length h2
  refine ⟨bs, ?_, hlen, (List.chain'_append.mp hchain).1⟩
  rw [jenks_breaks_optimized, if_neg (by omega), if_neg (by omega), if_neg (by simp [h3]), hbs]

/-!  Exact-arithmetic facts about the prefix-sum variance formula. -/

theorem take_eq_take_append_seg (data : List ℚ) {a b : ℕ} (h : a ≤ b) :
    data.take b = data.take a ++ seg data a b := by
  conv_lhs => rw [← List.take_append_drop a (data.take b)]
  rw [List.take_take, min_eq_left h, seg]

theorem cumulative_sum_sub (data : List ℚ) {a b : ℕ} (h : a ≤ b) :
    cumulative_sum data b - cumulative_sum data a = (seg data a b).sum := by
  rw [cumulative_sum, cumulative_sum, take_eq_take_append_seg data h, List.sum_append]
  ring

theorem cumulative_sum_squares_sub (data : List ℚ) {a b : ℕ} (h : a ≤ b) :
    cumulative_sum_squares data b - cumulative_sum_squares data a =
      ((seg data a b).map (fun x => x * x)).sum := by
  rw [cumulative_sum_squares, cumulative_sum_squares, take_eq_take_append_seg data h,
    List.map_append, List.sum_append]
  ring

theorem seg_length_le (data : List ℚ) (a b : ℕ) : (seg data a b).length ≤ b - a := by
  rw [seg, List.length_drop, List.length_take]
  omega

theorem sum_sq_list_nonneg (xs : List ℚ) : 0 ≤ (xs.map (fun x => x * x)).sum := by
  apply List.sum_nonneg
  intro y hy
  obtain ⟨x, _, rfl⟩ := List.mem_map.mp hy
  exact mul_self_nonneg x

theorem sq_sum_le_length_mul_sum_sq (xs : List ℚ) :
    xs.sum ^ 2 ≤ (xs.length : ℚ) * (xs.map (fun x => x * x)).sum := by
  induction xs with
  | nil => simp
  | cons x t ih =>
    rcases t with _ | ⟨y, t'⟩
    · simp [sq]
    · have hQ := sum_sq_list_nonneg (y :: t')
      have hL : (1 : ℚ) ≤ ((y :: t').length : ℚ) := by
        have : 1 ≤ (y :: t').length := by simp
        exact_mod_cast this
      set S := (y :: t').sum with hS
      set Q := ((y :: t').map (fun x => x * x)).sum with hQdef
      set L := ((y :: t').length : ℚ) with hLdef
      have hgoal : (x :: y :: t').sum = x + S := by simp [hS]
      have hgoal2 : ((x :: y :: t').map (fun x => x * x)).sum = x * x + Q := by
        simp [hQdef]
      have hlen : ((x :: y :: t').length : ℚ) = L + 1 := by
        rw [hLdef]
        push_cast [List.length_cons]
        ring
      rw [hgoal, hgoal2, hlen]
      nlinarith [sq_nonneg (L * x - S), ih, hQ, hL, sq_nonneg x]

theorem rangeVariance_self (data : List ℚ) (a : ℕ) : rangeVariance data a a = 0 := by
  simp [rangeVariance]

theorem rangeVariance_nonneg (data : List ℚ) {a b : ℕ} (h : a ≤ b) :
    0 ≤ rangeVariance data a b := by
  rcases eq_or_lt_of_le h with rfl | hlt
  · rw [rangeVariance_self]
  · rw [rangeVariance, cumulative_sum_sub data h, cumulative_sum_squares_sub data h]
    have hw : (0 : ℚ) < ((b - a : ℕ) : ℚ) := by
      have : 1 ≤ b - a := by omega
      exact_mod_cast Nat.lt_of_lt_of_le Nat.zero_lt_one this
    have hlen : ((seg data a b).length : ℚ) ≤ ((b - a : ℕ) : ℚ) := by
      exact_mod_cast seg_length_le data a b
    have hcs := sq_sum_le_length_mul_sum_sq (seg data a b)
    have hQ := sum_sq_list_nonneg (seg data a b)
    rw [sub_nonneg, div_le_iff₀ hw]
    nlinarith [hcs, hQ, hlen]

theorem rangeVariance_superadd (data : List ℚ) {a b c : ℕ} (hab : a ≤ b) (hbc : b ≤ c) :
    rangeVariance data a b + rangeVariance data b c ≤ rangeVariance data a c := by
  rcases eq_or_lt_of_le hab with rfl | hab'
  · rw [rangeVariance_self, zero_add]
  · rcases eq_or_lt_of_le hbc with rfl | hbc'
    · rw [rangeVariance_self, add_zero]
    · have hw1 : (0 : ℚ) < ((b - a : ℕ) : ℚ) := by
        have : 1 ≤ b - a := by omega
        exact_mod_cast Nat.lt_of_lt_of_le Nat.zero_lt_one this
      have hw2 : (0 : ℚ) < ((c - b : ℕ) : ℚ) := by
        have : 1 ≤ c - b := by omega
        exact_mod_cast Nat.lt_of_lt_of_le Nat.zero_lt_one this
      have hsplit : ((c - a : ℕ) : ℚ) = ((b - a : ℕ) : ℚ) + ((c - b : ℕ) : ℚ) := by
        have : c - a = (b - a) + (c - b) := by omega
        rw [this]
        push_cast
        ring
      rw [rangeVariance, rangeVariance, rangeVariance, hsplit]
      set S1 := cumulative_sum data b - cumulative_sum data a with hS1
      set S2 := cumulative_sum data c - cumulative_sum data b with hS2
      set w1 := ((b - a : ℕ) : ℚ) with hw1d
      set w2 := ((c - b : ℕ) : ℚ) with hw2d
      have hsum : cumulative_sum data c - cumulative_sum data a = S1 + S2 := by
        rw [hS1, hS2]; ring
      have hsq : cumulative_sum_squares data c - cumulative_sum_squares data a =
          (cumulative_sum_squares data b - cumulative_sum_squares data a) +
          (cumulative_sum_squares data c - cumulative_sum_squares data b) := by
        ring
      rw [hsum, hsq]
      have hkey : (S1 + S2) * (S1 + S2) / (w1 + w2) ≤ S1 * S1 / w1 + S2 * S2 / w2 := by
        rw [div_add_div _ _ (ne_of_gt hw1) (ne_of_gt hw2), div_le_div_iff₀ (by linarith) (by positivity)]
        nlinarith [sq_nonneg (w2 * S1 - w1 * S2), hw1, hw2]
      linarith [hkey]

theorem rangeVariance_left_mono (data : List ℚ) {a b c : ℕ} (hab : a ≤ b) (hbc : b ≤ c) :
    rangeVariance data b c ≤ rangeVariance data a c := by
  have h1 := rangeVariance_superadd data hab hbc
  have h2 := rangeVariance_nonneg data hab
  linarith

theorem rangeVariance_succ (data : List ℚ) (k : ℕ) : rangeVariance data k (k + 1) = 0 := by
  have hsub : k + 1 - k = 1 := by omega
  rw [rangeVariance, cumulative_sum_sub data (Nat.le_succ k),
    cumulative_sum_squares_sub data (Nat.le_succ k), hsub]
  have : seg data k (k + 1) = [] ∨ ∃ x, seg data k (k + 1) = [x] := by
    have hlen := seg_length_le data k (k + 1)
    rw [hsub] at hlen
    rcases hseg : seg data k (k + 1) with _ | ⟨x, rest⟩
    · exact Or.inl rfl
    · right
      refine ⟨x, ?_⟩
      rw [hseg] at hlen
      simp only [List.length_cons] at hlen
      have : rest = [] := List.length_eq_zero.mp (by omega)
      rw [this]
  rcases this with hseg | ⟨x, hseg⟩ <;> rw [hseg] <;> simp

/-!  Diagonal cells: partitioning `j` observations into `j` singleton
classes has total variance `0`, and the stored class start is `j`. -/

theorem cell_diag (data : List ℚ) : ∀ j, 1 ≤ j →
    cell data j j = (((0 : ℚ) : WithTop ℚ), j) := by
  intro j
  induction j with
  | zero => intro h; exact absurd h (by omega)
  | succ jj ih =>
    intro _
    by_cases hjj : jj = 0
    · subst hjj
      rw [cell_one data le_rfl]
      have h01 : rangeVariance data 0 1 = 0 := rangeVariance_succ data 0
      rw [h01]
    · have hj2 : 2 ≤ jj + 1 := by omega
      rw [cell_two_le data hj2 le_rfl]
      have hsub : jj + 1 - 1 = jj := rfl
      have hlen : jj + 1 - jj = 1 := by omega
      rw [hsub, hlen, List.range'_one]
      have hf : (cell data jj jj).1 + ((rangeVariance data jj (jj + 1) : ℚ) : WithTop ℚ) =
          ((0 : ℚ) : WithTop ℚ) := by
        rw [ih (by omega), rangeVariance_succ data jj]
        simp
      show minScan _ [jj] = _
      rw [minScan, List.foldl_cons, List.foldl_nil, scanStep]
      simp only [hf]
      rw [if_pos (WithTop.coe_lt_top 0)]

theorem backtrack_diag (data : List ℚ) : ∀ j,
    backtrack data j j = some (List.range' 1 (j - 1)) := by
  intro j
  induction j with
  | zero => simp [backtrack]
  | succ jj ih =>
    by_cases hjj : jj = 0
    · subst hjj
      simp [backtrack]
    · obtain ⟨jjj, rfl⟩ : ∃ jjj, jj = jjj + 1 := ⟨jj - 1, by omega⟩
      have hdiag := cell_diag data (jjj + 2) (by omega)
      show backtrack data (jjj + 2) (jjj + 2) = _
      rw [backtrack, hdiag]
      simp only []
      rw [if_neg (by omega)]
      have hsub : jjj + 2 - 1 = jjj + 1 := rfl
      rw [hsub, ih]
      have hconcat : List.range' 1 (jjj + 1) = List.range' 1 jjj ++ [1 + jjj] :=
        List.range'_1_concat 1 jjj
      have h1 : jjj + 1 - 1 = jjj := rfl
      rw [h1, hconcat]
      have : 1 + jjj = jjj + 1 := by omega
      rw [this]

/-!  Restated candidate lemmas with the predecessor column made explicit,
and existence of an attained minimum. -/

theorem cell_le_cand (data : List ℚ) {j i c : ℕ} (hj : 1 ≤ j) (hji : j + 1 ≤ i)
    (hc1 : j ≤ c) (hc2 : c < i) :
    (cell data (j + 1) i).1 ≤ (cell data j c).1 + ((rangeVariance data c i : ℚ) : WithTop ℚ) := by
  have h := cell_le_candidate data (j := j + 1) (by omega) hji (by omega) hc2
  simpa using h

theorem cell_argmin (data : List ℚ) {j i : ℕ} (hj : 1 ≤ j) (hji : j + 1 ≤ i) :
    ∃ c, j ≤ c ∧ c < i ∧
      (cell data (j + 1) i).1 = (cell data j c).1 + ((rangeVariance data c i : ℚ) : WithTop ℚ) := by
  have hex : ∃ k ∈ List.range' (j + 1 - 1) (i - (j + 1 - 1)),
      (fun k => (cell data (j + 1 - 1) k).1 +
        ((rangeVariance data k i : ℚ) : WithTop ℚ)) k < ⊤ := by
    refine ⟨j, by rw [List.mem_range'_1]; omega, ?_⟩
    simp only [Nat.add_sub_cancel]
    exact WithTop.add_lt_top.mpr
      ⟨cell_fst_lt_top data j hj j le_rfl, WithTop.coe_lt_top _⟩
  obtain ⟨l1, c, l2, hks, _, _, heq⟩ := minScan_attained _ _ hex
  have hc : c ∈ List.range' (j + 1 - 1) (i - (j + 1 - 1)) := by
    rw [hks]
    exact List.mem_append_right _ (List.mem_cons_self _ _)
  rw [List.mem_range'_1] at hc
  refine ⟨c, by omega, by omega, ?_⟩
  rw [cell_two_le data (by omega) hji]
  simp only [Nat.add_sub_cancel] at heq ⊢
  rw [heq]

/-!  Adding one more class never increases the optimal total variance. -/

theorem cell_fst_anti (data : List ℚ) : ∀ j, 1 ≤ j → ∀ i, j + 1 ≤ i →
    (cell data (j + 1) i).1 ≤ (cell data j i).1 := by
  intro j
  induction j with
  | zero => intro h; exact absurd h (by omega)
  | succ jj ih =>
    intro _ i hi
    by_cases hjj : jj = 0
    · subst hjj
      have hcand := cell_le_cand data (j := 1) (i := i) (c := 1) le_rfl (by omega) le_rfl (by omega)
      rw [cell_one data le_rfl] at hcand
      have h01 : rangeVariance data 0 1 = 0 := rangeVariance_succ data 0
      rw [h01] at hcand
      rw [cell_one data (by omega)]
      refine le_trans hcand ?_
      rw [WithTop.coe_zero, zero_add]
      exact WithTop.coe_le_coe.mpr (rangeVariance_left_mono data (by omega) (by omega))
    obtain ⟨c, hc1, hc2, hceq⟩ := cell_argmin data (j := jj) (i := i) (by omega) (by omega)
    by_cases hclast : c = i - 1
    · subst hclast
      have hisub : i - 1 + 1 = i := by omega
      have hrv : rangeVariance data (i - 1) i = 0 := by
        rw [← hisub]
        exact rangeVariance_succ data (i - 1)
      have hcand := cell_le_cand data (j := jj + 1) (c := i - 1) (by omega) hi (by omega) (by omega)
      have hih := ih (by omega) (i - 1) (by omega)
      rw [hceq, hrv]
      rw [hrv] at hcand
      calc (cell data (jj + 1 + 1) i).1
          ≤ (cell data (jj + 1) (i - 1)).1 + ((0 : ℚ) : WithTop ℚ) := hcand
        _ ≤ (cell data jj (i - 1)).1 + ((0 : ℚ) : WithTop ℚ) :=
            add_le_add_right hih _
    · have hcc : c + 1 < i := by omega
      have hcand := cell_le_cand data (j := jj + 1) (c := c + 1) (by omega) hi (by omega) hcc
      have hmid := cell_le_cand data (j := jj) (i := c + 1) (c := c) (by omega) (by omega) hc1 (by omega)
      have hrvc : rangeVariance data c (c + 1) = 0 := rangeVariance_succ data c
      rw [hrvc] at hmid
      have hmono : rangeVariance data (c + 1) i ≤ rangeVariance data c i :=
        rangeVariance_left_mono data (by omega) (by omega)
      rw [hceq]
      calc (cell data (jj + 1 + 1) i).1
          ≤ (cell data (jj + 1) (c + 1)).1 +
              ((rangeVariance data (c + 1) i : ℚ) : WithTop ℚ) := hcand
        _ ≤ ((cell data jj c).1 + ((0 : ℚ) : WithTop ℚ)) +
              ((rangeVariance data (c + 1) i : ℚ) : WithTop ℚ) :=
            add_le_add_right hmid _
        _ = (cell data jj c).1 + ((rangeVariance data (c + 1) i : ℚ) : WithTop ℚ) := by
            rw [WithTop.coe_zero, add_zero]
        _ ≤ (cell data jj c).1 + ((rangeVariance data c i : ℚ) : WithTop ℚ) :=
            add_le_add_left (WithTop.coe_le_coe.mpr hmono) _

/-!  Claim theorems. -/

/-- Claim C1: for every class count `j` in `[2, k]` and prefix length `i` in
`[j, n]`, `variance_combinations[idx(i, j)]` is the minimum over candidates
`c` in `[j-1, i-1]` of `variance_combinations[idx(c, j-1)] + ssd(c, i)`, and
`lower_class_limits[idx(i, j)]` is `c + 1` for the first candidate `c`
(scanned in increasing order) achieving that minimum: every strictly earlier
candidate has a strictly larger total (strict less-than comparison, leftmost
tie-break). -/
theorem claim1_dp_recurrence (data : List ℚ) (numClasses j i : ℕ)
    (hj2 : 2 ≤ j) (hjk : j ≤ numClasses) (hji : j ≤ i) (hin : i ≤ data.length) :
    (∀ c, j - 1 ≤ c → c < i →
      (cell data j i).1 ≤ (cell data (j - 1) c).1 + ((rangeVariance data c i : ℚ) : WithTop ℚ)) ∧
    ∃ c, j - 1 ≤ c ∧ c < i ∧
      (cell data j i).1 = (cell data (j - 1) c).1 + ((rangeVariance data c i : ℚ) : WithTop ℚ) ∧
      (cell data j i).2 = c + 1 ∧
      ∀ c', j - 1 ≤ c' → c' < c →
        (cell data j i).1 < (cell data (j - 1) c').1 +
          ((rangeVariance data c' i : ℚ) : WithTop ℚ) := by
  constructor
  · intro c hc1 hc2
    exact cell_le_candidate data hj2 hji hc1 hc2
  · have hex : ∃ k ∈ List.range' (j - 1) (i - (j - 1)),
        (fun k => (cell data (j - 1) k).1 +
          ((rangeVariance data k i : ℚ) : WithTop ℚ)) k < ⊤ := by
      refine ⟨j - 1, by rw [List.mem_range'_1]; omega, ?_⟩
      exact WithTop.add_lt_top.mpr
        ⟨cell_fst_lt_top data (j - 1) (by omega) (j - 1) le_rfl, WithTop.coe_lt_top _⟩
    obtain ⟨l1, c, l2, hks, hl1, _, heq⟩ := minScan_attained _ _ hex
    have hc : c ∈ List.range' (j - 1) (i - (j - 1)) := by
      rw [hks]
      exact List.mem_append_right _ (List.mem_cons_self _ _)
    rw [List.mem_range'_1] at hc
    have hcell : cell data j i =
        ((cell data (j - 1) c).1 + ((rangeVariance data c i : ℚ) : WithTop ℚ), c + 1) := by
      rw [cell_two_le data hj2 hji, heq]
    have hpw : List.Pairwise (· < ·) (List.range' (j - 1) (i - (j - 1))) :=
      List.pairwise_lt_range' (j - 1) (i - (j - 1))
    rw [hks, List.pairwise_append] at hpw
    refine ⟨c, by omega, by omega, by rw [hcell], by rw [hcell], ?_⟩
    intro c' hc1' hc2'
    have hc'mem : c' ∈ List.range' (j - 1) (i - (j - 1)) := by
      rw [List.mem_range'_1]
      omega
    rw [hks] at hc'mem
    have hc'l1 : c' ∈ l1 := by
      rcases List.mem_append.mp hc'mem with h | h
      · exact h
      · rcases List.mem_cons.mp h with rfl | h2
        · omega
        · have := (List.pairwise_cons.mp hpw.2.1).1 c' h2
          omega
    have := hl1 c' hc'l1
    rw [hcell]
    exact this

/-- Claim C1 witness: the recurrence characterization instantiated at
`data = [1, 2, 3, 4]`, `k = 2`, `j = 2`, `i = 3`. -/
theorem claim1_dp_recurrence_w :
    (2 ≤ 2 ∧ 2 ≤ 2 ∧ 2 ≤ 3 ∧ 3 ≤ ([1, 2, 3, 4] : List ℚ).length) ∧
    ((∀ c, 2 - 1 ≤ c → c < 3 →
      (cell [1, 2, 3, 4] 2 3).1 ≤ (cell [1, 2, 3, 4] (2 - 1) c).1 +
        ((rangeVariance [1, 2, 3, 4] c 3 : ℚ) : WithTop ℚ)) ∧
    ∃ c, 2 - 1 ≤ c ∧ c < 3 ∧
      (cell [1, 2, 3, 4] 2 3).1 = (cell [1, 2, 3, 4] (2 - 1) c).1 +
        ((rangeVariance [1, 2, 3, 4] c 3 : ℚ) : WithTop ℚ) ∧
      (cell [1, 2, 3, 4] 2 3).2 = c + 1 ∧
      ∀ c', 2 - 1 ≤ c' → c' < c →
        (cell [1, 2, 3, 4] 2 3).1 < (cell [1, 2, 3, 4] (2 - 1) c').1 +
          ((rangeVariance [1, 2, 3, 4] c' 3 : ℚ) : WithTop ℚ)) :=
  ⟨⟨le_rfl, le_rfl, by omega, by simp⟩,
    claim1_dp_recurrence [1, 2, 3, 4] 2 2 3 le_rfl le_rfl (by omega) (by simp)⟩

/-- Claim C2 counterexample: on empty data with `num_classes = 1` the code
reaches the `num_classes > n_data` check first (`1 > 0`), so it raises
`TooManyClasses`, not `ZeroClasses` as the claim states. -/
theorem claim2_counterexample :
    jenks_breaks_optimized [] 1 = some (Except.error JError.tooManyClasses) ∧
    jenks_breaks_optimized [] 1 ≠ some (Except.error JError.zeroClasses) := by
  have h : jenks_breaks_optimized [] 1 = some (Except.error JError.tooManyClasses) := by
    with_unfolding_all rfl
  refine ⟨h, ?_⟩
  rw [h]
  intro hcontra
  simp only [Option.some.injEq, Except.error.injEq] at hcontra
  exact absurd hcontra (by decide)

/-- Claim C2 amended: calling the entry point with an empty data sequence and
`numClasses = 1` fails with the `TooManyClasses` error (the error whose
message is "Number of classes cannot exceed number of data points."). -/
theorem claim2_amended :
    jenks_breaks_optimized [] 1 = some (Except.error JError.tooManyClasses) ∧
    JError.message JError.tooManyClasses =
      "Number of classes cannot exceed number of data points." := by
  exact ⟨by with_unfolding_all rfl, rfl⟩

/-- Claim C3 counterexample: the unsorted-input error message in the code is
"The input NumPy array must be sorted.", not the claimed
"The input array must be sorted.". -/
theorem claim3_counterexample :
    jenks_breaks_optimized [3, 1, 2] 2 = some (Except.error JError.unsortedInput) ∧
    JError.message JError.unsortedInput ≠ "The input array must be sorted." := by
  refine ⟨by with_unfolding_all rfl, ?_⟩
  decide

/-- Claim C3 amended: when the data is not non-decreasing (and the class-count
checks pass), the entry point fails with an error whose message text is
exactly "The input NumPy array must be sorted.". -/
theorem claim3_amended (data : List ℚ) (k : ℕ) (h0 : k ≠ 0) (hk : k ≤ data.length)
    (hs : sortedCheck data = false) :
    jenks_breaks_optimized data k = some (Except.error JError.unsortedInput) ∧
    JError.message JError.unsortedInput = "The input NumPy array must be sorted." := by
  refine ⟨?_, rfl⟩
  rw [jenks_breaks_optimized, if_neg h0, if_neg (by omega), if_pos hs]

/-- Claim C3 amended, witness at `data = [3, 1, 2]`, `k = 2`. -/
theorem claim3_amended_w :
    ((2 : ℕ) ≠ 0 ∧ 2 ≤ ([3, 1, 2] : List ℚ).length ∧ sortedCheck [3, 1, 2] = false) ∧
    (jenks_breaks_optimized [3, 1, 2] 2 = some (Except.error JError.unsortedInput) ∧
      JError.message JError.unsortedInput = "The input NumPy array must be sorted.") :=
  ⟨⟨by omega, by simp, by with_unfolding_all rfl⟩,
    claim3_amended [3, 1, 2] 2 (by omega) (by simp) (by with_unfolding_all rfl)⟩

/-- Claim C4: for `data = [1,2,3,4,5,6,7,8,9]` and `numClasses = 3` the entry
point returns the breakpoint sequence `[3, 6]`. -/
theorem claim4_scenarioA :
    jenks_breaks_optimized [1, 2, 3, 4, 5, 6, 7, 8, 9] 3 = some (Except.ok [3, 6]) := by
  with_unfolding_all rfl

/-- Claim C5: the entry point returns an error iff `numClasses = 0`, or
`numClasses > n`, or the data is not non-decreasing; `numClasses = 0` yields
`ZeroClasses`, `numClasses > n` yields `TooManyClasses`, and an unsorted
input passing the first two checks yields `UnsortedInput`; all are decided
before any prefix-sum or DP computation, and the result is never both an
error and a breakpoint sequence. -/
theorem claim5_error_taxonomy (data : List ℚ) (k : ℕ) :
    ((∃ e, jenks_breaks_optimized data k = some (Except.error e)) ↔
      (k = 0 ∨ data.length < k ∨ sortedCheck data = false)) ∧
    (k = 0 → jenks_breaks_optimized data k = some (Except.error JError.zeroClasses)) ∧
    (data.length < k →
      jenks_breaks_optimized data k = some (Except.error JError.tooManyClasses)) ∧
    (k ≠ 0 → k ≤ data.length → sortedCheck data = false →
      jenks_breaks_optimized data k = some (Except.error JError.unsortedInput)) ∧
    (∀ e bs, jenks_breaks_optimized data k = some (Except.error e) →
      jenks_breaks_optimized data k ≠ some (Except.ok bs)) := by
  have hzero : k = 0 → jenks_breaks_optimized data k = some (Except.error JError.zeroClasses) := by
    intro h
    rw [jenks_breaks_optimized, if_pos h]
  have htoo : data.length < k →
      jenks_breaks_optimized data k = some (Except.error JError.tooManyClasses) := by
    intro h
    rw [jenks_breaks_optimized, if_neg (by omega), if_pos (by omega)]
  have huns : k ≠ 0 → k ≤ data.length → sortedCheck data = false →
      jenks_breaks_optimized data k = some (Except.error JError.unsortedInput) := by
    intro h0 hk hs
    rw [jenks_breaks_optimized, if_neg h0, if_neg (by omega), if_pos hs]
  refine ⟨⟨?_, ?_⟩, hzero, htoo, huns, ?_⟩
  · intro ⟨e, he⟩
    by_contra hcon
    push_neg at hcon
    obtain ⟨h0, hlen, hs⟩ := hcon
    have hs' : sortedCheck data = true := by
      cases h : sortedCheck data
      · exact absurd h hs
      · rfl
    obtain ⟨bs, hok, _, _⟩ := jenks_ok_spec data k (by omega) (by omega) hs'
    rw [hok] at he
    simp only [Option.some.injEq] at he
    exact Except.noConfusion he
  · intro h
    rcases h with h | h | h
    · exact ⟨JError.zeroClasses, hzero h⟩
    · exact ⟨JError.tooManyClasses, htoo h⟩
    · by_cases h0 : k = 0
      · exact ⟨JError.zeroClasses, hzero h0⟩
      · by_cases hlen : data.length < k
        · exact ⟨JError.tooManyClasses, htoo hlen⟩
        · exact ⟨JError.unsortedInput, huns h0 (by omega) h⟩
  · intro e bs he hok
    rw [he] at hok
    simp only [Option.some.injEq] at hok
    exact Except.noConfusion hok

/-- Claim C6: for every input accepted by the validator the returned
breakpoint sequence has exactly `numClasses - 1` entries, each a
non-negative index, and is strictly increasing; for `numClasses = 1` it is
empty. -/
theorem claim6_output_shape (data : List ℚ) (k : ℕ) (h1 : 1 ≤ k) (h2 : k ≤ data.length)
    (h3 : sortedCheck data = true) :
    ∃ bs, jenks_breaks_optimized data k = some (Except.ok bs) ∧
      bs.length = k - 1 ∧ List.Pairwise (· < ·) bs ∧ (∀ b ∈ bs, 0 ≤ b) ∧
      (k = 1 → bs = []) := by
  obtain ⟨bs, hok, hlen, hchain⟩ := jenks_ok_spec data k h1 h2 h3
  refine ⟨bs, hok, hlen, List.chain'_iff_pairwise.mp hchain, fun b _ => Nat.zero_le b, ?_⟩
  intro hk1
  subst hk1
  exact List.length_eq_zero.mp (by omega)

/-- Claim C6 witness at `data = [1, 2, 3]`, `k = 2`. -/
theorem claim6_output_shape_w :
    (1 ≤ 2 ∧ 2 ≤ ([1, 2, 3] : List ℚ).length ∧ sortedCheck [1, 2, 3] = true) ∧
    (∃ bs, jenks_breaks_optimized [1, 2, 3] 2 = some (Except.ok bs) ∧
      bs.length = 2 - 1 ∧ List.Pairwise (· < ·) bs ∧ (∀ b ∈ bs, 0 ≤ b) ∧
      ((2 : ℕ) = 1 → bs = [])) :=
  ⟨⟨by omega, by simp, by with_unfolding_all rfl⟩,
    claim6_output_shape [1, 2, 3] 2 (by omega) (by simp) (by with_unfolding_all rfl)⟩

/-- Claim C7 counterexample: for `data = [1, 2]` and `numClasses = n = 2` the
code returns `[1]` (the 0-based start offsets of classes `2..n`), not
`[0, …, n-2] = [0]` as the claim states. -/
theorem claim7_counterexample :
    jenks_breaks_optimized [1, 2] 2 = some (Except.ok [1]) ∧
    jenks_breaks_optimized [1, 2] 2 ≠ some (Except.ok [0]) := by
  have h : jenks_breaks_optimized [1, 2] 2 = some (Except.ok [1]) := by
    with_unfolding_all rfl
  refine ⟨h, ?_⟩
  rw [h]
  intro hcontra
  simp only [Option.some.injEq, Except.ok.injEq] at hcontra
  exact absurd hcontra (by decide)

/-- Claim C7 amended: for every non-decreasing input of length `n ≥ 1`,
calling the entry point with `numClasses = n` returns exactly
`[1, 2, …, n-1]` (every observation its own class; the entries are the
0-based start offsets of classes `2..n`). -/
theorem claim7_all_singletons (data : List ℚ) (h1 : 1 ≤ data.length)
    (h3 : sortedCheck data = true) :
    jenks_breaks_optimized data data.length =
      some (Except.ok (List.range' 1 (data.length - 1))) := by
  rw [jenks_breaks_optimized, if_neg (by omega), if_neg (by omega),
    if_neg (by simp [h3]), backtrack_diag]

/-- Claim C7 amended, witness at `data = [1, 2]`. -/
theorem claim7_all_singletons_w :
    (1 ≤ ([1, 2] : List ℚ).length ∧ sortedCheck [1, 2] = true) ∧
    jenks_breaks_optimized [1, 2] ([1, 2] : List ℚ).length =
      some (Except.ok (List.range' 1 (([1, 2] : List ℚ).length - 1))) :=
  ⟨⟨by simp, by with_unfolding_all rfl⟩,
    claim7_all_singletons [1, 2] (by simp) (by with_unfolding_all rfl)⟩

/-- Claim C8: the entry point is deterministic — two calls with identical
input (same array contents and same class count) return identical output. -/
theorem claim8_deterministic (d1 d2 : List ℚ) (k1 k2 : ℕ) (hd : d1 = d2) (hk : k1 = k2) :
    jenks_breaks_optimized d1 k1 = jenks_breaks_optimized d2 k2 := by
  rw [hd, hk]

/-- Claim C8 witness. -/
theorem claim8_deterministic_w :
    (([1, 2] : List ℚ) = [1, 2] ∧ (1 : ℕ) = 1) ∧
    jenks_breaks_optimized [1, 2] 1 = jenks_breaks_optimized [1, 2] 1 :=
  ⟨⟨rfl, rfl⟩, claim8_deterministic [1, 2] [1, 2] 1 1 rfl rfl⟩

/-- Claim C9: for fixed valid input, the optimal total within-class variance
for `numClasses = m + 1` is at most the one for `numClasses = m`. -/
theorem claim9_variance_monotone (data : List ℚ) (m : ℕ) (h1 : 1 ≤ m)
    (h2 : m + 1 ≤ data.length) (hs : sortedCheck data = true) :
    (cell data (m + 1) data.length).1 ≤ (cell data m data.length).1 :=
  cell_fst_anti data m h1 data.length h2

/-- Claim C9 witness at `data = [1, 2, 3]`, `m = 1`. -/
theorem claim9_variance_monotone_w :
    (1 ≤ 1 ∧ 1 + 1 ≤ ([1, 2, 3] : List ℚ).length ∧ sortedCheck [1, 2, 3] = true) ∧
    (cell [1, 2, 3] (1 + 1) ([1, 2, 3] : List ℚ).length).1 ≤
      (cell [1, 2, 3] 1 ([1, 2, 3] : List ℚ).length).1 :=
  ⟨⟨le_rfl, by simp, by with_unfolding_all rfl⟩,
    claim9_variance_monotone [1, 2, 3] 1 le_rfl (by simp) (by with_unfolding_all rfl)⟩

/-- Claim C10, failing input: in binary64 the claim is false of the code.
Take `data = [2^700, 2^700]` and `num_classes = 2` — both values are finite,
exactly representable, the input is sorted and passes all three validation
checks.  Then `data[i] * data[i]` overflows to `+inf`, so
`cumulative_sum_squares` is `inf`, the range `sum_squares` is
`inf - inf = NaN`, every `total_variance` is NaN, the strict less-than
update never fires, and the visited entry `lower_class_limits[idx(2, 2)]`
stays `0`; the backtracking subtraction `0 - 1` then underflows and the run
panics (modelled `none`) instead of returning `Ok`.  On this trace every
finite intermediate is a power of two, so the model coincides with
IEEE-754 binary64. -/
theorem claim10_overflow_underflow :
    (2 : ℕ) ≠ 0 ∧
    2 ≤ ([F64.fin (2 ^ 700), F64.fin (2 ^ 700)] : List F64).length ∧
    fsortedCheck [F64.fin (2 ^ 700), F64.fin (2 ^ 700)] = true ∧
    (fcell [F64.fin (2 ^ 700), F64.fin (2 ^ 700)] 2 2).2 = 0 ∧
    jenks_breaks_optimized_f64 [F64.fin (2 ^ 700), F64.fin (2 ^ 700)] 2 = none := by
  refine ⟨by omega, by simp, ?_, ?_, ?_⟩ <;> with_unfolding_all rfl

end Jenks
